import Mathlib

/-
Verification development for the utools repository, a desktop utility-belt
application.  Each tool panel wraps a short, pure transformation on text.
Strings handled by the diff tool are modelled through their character lists
(`List Char`), and byte positions through the UTF-8 size of those lists,
matching the byte ranges (`text.len()`) used by the Rust code.  Strings
handled by the base64 tools are modelled as their UTF-8 byte sequences
(`List Nat`, each entry below 256).
-/

/-- Change classification used by the text-difference tool:
`similar::ChangeTag` has the variants Delete, Insert and Equal. -/
inductive ChangeTag where
  | delete
  | insert
  | equal
deriving DecidableEq, Repr

/-- Diff granularity selector of the text-difference tool
(`Granularity` in text_difference_tool.rs): Character, Word or Line. -/
inductive Granularity where
  | character
  | word
  | line
deriving DecidableEq, Repr

/-- UTF-8 byte length of a character list.  Rust strings report their length
in UTF-8 bytes (`String::len`), which is the sum of the UTF-8 sizes of the
characters. -/
def byteLen (l : List Char) : Nat :=
  l.foldr (fun c n => c.utf8Size + n) 0

/-- Modelled from the spec: the text-diffing library (the `similar` crate) is
an external collaborator that is not part of this repository.  Character
granularity compares individual character units (`TextDiff::from_chars`). -/
def tokenizeChars (l : List Char) : List (List Char) :=
  l.map (fun c => [c])

/-- Maximal runs of characters on which the predicate is constant.  Used to
model word tokenization, where whitespace runs are tokens of their own. -/
def runsBy (p : Char → Bool) : List Char → List (List Char)
  | [] => []
  | c :: cs =>
    match runsBy p cs with
    | [] => [[c]]
    | [] :: rs => [c] :: [] :: rs
    | (d :: r) :: rs =>
      if p c = p d then (c :: d :: r) :: rs else [c] :: (d :: r) :: rs

/-- Modelled from the spec: Word granularity compares whitespace-delimited
tokens, with whitespace runs themselves appearing as tokens
(`TextDiff::from_words`). -/
def tokenizeWords (l : List Char) : List (List Char) :=
  runsBy (fun c => c.isWhitespace) l

/-- Modelled from the spec: Line granularity compares newline-delimited
lines (`TextDiff::from_lines`); each token keeps its terminating newline so
that tokens concatenate back to the input. -/
def splitLines : List Char → List (List Char)
  | [] => []
  | c :: cs =>
    match splitLines cs with
    | [] => [[c]]
    | r :: rs =>
      if c = '\n' then [c] :: r :: rs else (c :: r) :: rs

/-- Tokenization of an input for the selected granularity. -/
def tokenize (g : Granularity) (l : List Char) : List (List Char) :=
  match g with
  | .character => tokenizeChars l
  | .word => tokenizeWords l
  | .line => splitLines l

/-- Number of non-Equal entries of a change list: the edit cost minimized by
a longest-common-subsequence edit script. -/
def changeCost (cs : List (ChangeTag × List Char)) : Nat :=
  cs.countP (fun c => c.1 ≠ ChangeTag.equal)

/-- Modelled from the spec: the diff algorithm of the external text-diffing
library is a standard sequence-alignment diff (Myers-style
longest-common-subsequence edit script) over the token stream.  Ties are
broken deterministically in favour of Delete, which realizes the
delete-before-insert convention the spec fixes as the contract. -/
def diffAux : Nat → List (List Char) → List (List Char) → List (ChangeTag × List Char)
  | _, [], bs => bs.map (fun b => (ChangeTag.insert, b))
  | _, as, [] => as.map (fun a => (ChangeTag.delete, a))
  | 0, _, _ => []
  | fuel + 1, a :: as, b :: bs =>
    if a = b then
      (ChangeTag.equal, a) :: diffAux fuel as bs
    else
      let d := diffAux fuel as (b :: bs)
      let i := diffAux fuel (a :: as) bs
      if changeCost d ≤ changeCost i then
        (ChangeTag.delete, a) :: d
      else
        (ChangeTag.insert, b) :: i

/-- Edit script for two token streams, with the fuel of `diffAux` set to the
total number of tokens, which every recursive step decreases, so that the
fuel-exhaustion case is never reached. -/
def diffChanges (as bs : List (List Char)) : List (ChangeTag × List Char) :=
  diffAux (as.length + bs.length) as bs

/-- One iteration of the highlight-assembly loop body of
`TextDifferenceTool::on_compare_click`: read the current byte position,
append the change value to the output text, and push the byte range it
occupied, tagged with its classification (the code stores the theme colour
determined by the tag; the tag is kept here, colours being a fixed function
of tag and theme). -/
def stepHl (acc : List Char × List ((Nat × Nat) × ChangeTag))
    (ch : ChangeTag × List Char) : List Char × List ((Nat × Nat) × ChangeTag) :=
  let pos := byteLen acc.1
  let text := acc.1 ++ ch.2
  (text, acc.2 ++ [((pos, byteLen text), ch.1)])

/-- The compare handler `TextDifferenceTool::on_compare_click`: select the
diff by granularity, then run the nested loop over the diff operations and,
within each operation, over its per-token changes (`iter_changes` yields one
Change per token of the operation), pushing one highlight per change.  The
per-token changes of the operations, walked in operation order, are exactly
the entries of the edit script `diffChanges`, so the loop is the fold of the
loop body over that change list. -/
def onCompareClick (g : Granularity) (old new : String) :
    List Char × List ((Nat × Nat) × ChangeTag) :=
  (diffChanges (tokenize g old.data) (tokenize g new.data)).foldl stepHl ([], [])

/-- Per-token Equal highlight ranges for a token stream starting at a byte
position: one range per token, each spanning the token's bytes,
contiguously. -/
def equalRanges (pos : Nat) : List (List Char) → List ((Nat × Nat) × ChangeTag)
  | [] => []
  | t :: ts => ((pos, pos + byteLen t), ChangeTag.equal) :: equalRanges (pos + byteLen t) ts

/-- Ranges starting at a given byte position chain contiguously, each range
being well formed, and the last one ending at the given end position. -/
def chainFrom (pos : Nat) : List ((Nat × Nat) × ChangeTag) → Nat → Prop
  | [], stop => pos = stop
  | ((a, b), _) :: rest, stop => a = pos ∧ a ≤ b ∧ chainFrom b rest stop

/-- Sum of the lengths of the ranges of a highlight list. -/
def sumLens (hls : List ((Nat × Nat) × ChangeTag)) : Nat :=
  hls.foldr (fun h n => (h.1.2 - h.1.1) + n) 0

/-- Modelled from the spec: the Base64 codec library (the `base64` crate,
`general_purpose::STANDARD` engine) is an external collaborator that is not
part of this repository.  The standard alphabet maps a sextet (a value below
64) to an ASCII code: A-Z, a-z, 0-9, then + and /. -/
def encodeSextet (n : Nat) : Nat :=
  if n < 26 then 65 + n
  else if n < 52 then 97 + (n - 26)
  else if n < 62 then 48 + (n - 52)
  else if n = 62 then 43
  else 47

/-- Modelled from the spec: inverse of the standard alphabet; ASCII codes
outside the alphabet (including the padding character) decode to none. -/
def decodeSextet (c : Nat) : Option Nat :=
  if 65 ≤ c ∧ c ≤ 90 then some (c - 65)
  else if 97 ≤ c ∧ c ≤ 122 then some (c - 97 + 26)
  else if 48 ≤ c ∧ c ≤ 57 then some (c - 48 + 52)
  else if c = 43 then some 62
  else if c = 47 then some 63
  else none

/-- Modelled from the spec: standard-alphabet Base64 encoding with padding.
Input bytes are consumed three at a time into four sextets; a final group of
one or two bytes is padded with = (ASCII 61).  Total on every byte
sequence. -/
def b64encode : List Nat → List Nat
  | b1 :: b2 :: b3 :: rest =>
    encodeSextet (b1 / 4) ::
    encodeSextet (b1 % 4 * 16 + b2 / 16) ::
    encodeSextet (b2 % 16 * 4 + b3 / 64) ::
    encodeSextet (b3 % 64) ::
    b64encode rest
  | [b1, b2] =>
    [encodeSextet (b1 / 4), encodeSextet (b1 % 4 * 16 + b2 / 16),
     encodeSextet (b2 % 16 * 4), 61]
  | [b1] =>
    [encodeSextet (b1 / 4), encodeSextet (b1 % 4 * 16), 61, 61]
  | [] => []

/-- Modelled from the spec: strict standard-alphabet Base64 decoding.  The
input must consist of four-character groups; padding is required and only
canonical final groups (with the unused low bits zero) are accepted; any
character outside the alphabet, or a length that is not a multiple of four,
fails. -/
def b64decode : List Nat → Option (List Nat)
  | [] => some []
  | c1 :: c2 :: c3 :: c4 :: rest =>
    match decodeSextet c1, decodeSextet c2 with
    | some s1, some s2 =>
      if c3 = 61 then
        if c4 = 61 ∧ rest = [] ∧ s2 % 16 = 0 then
          some [s1 * 4 + s2 / 16]
        else none
      else
        match decodeSextet c3 with
        | some s3 =>
          if c4 = 61 then
            if rest = [] ∧ s3 % 4 = 0 then
              some [s1 * 4 + s2 / 16, s2 % 16 * 16 + s3 / 4]
            else none
          else
            match decodeSextet c4 with
            | some s4 =>
              match b64decode rest with
              | some bs =>
                some ((s1 * 4 + s2 / 16) :: (s2 % 16 * 16 + s3 / 4) ::
                      (s3 % 4 * 64 + s4) :: bs)
              | none => none
            | none => none
        | none => none
    | _, _ => none
  | _ => none

/-- Whether a byte is a UTF-8 continuation byte (10xxxxxx). -/
def isCont (b : Nat) : Bool :=
  128 ≤ b && b ≤ 191

/-- UTF-8 validity of a byte sequence (the check performed by Rust
`String::from_utf8`): ASCII bytes stand alone; two-byte sequences start with
0xC2-0xDF; three-byte sequences start with 0xE0-0xEF with the first
continuation byte restricted to exclude overlong forms and surrogates;
four-byte sequences start with 0xF0-0xF4 with the first continuation byte
restricted to the range of valid code points. -/
def validUtf8 : List Nat → Bool
  | [] => true
  | b :: bs =>
    if b ≤ 127 then validUtf8 bs
    else
      match bs with
      | b1 :: bs1 =>
        if 194 ≤ b && b ≤ 223 then isCont b1 && validUtf8 bs1
        else
          match bs1 with
          | b2 :: bs2 =>
            if b = 224 then
              (160 ≤ b1 && b1 ≤ 191) && isCont b2 && validUtf8 bs2
            else if (225 ≤ b && b ≤ 236) || b = 238 || b = 239 then
              isCont b1 && isCont b2 && validUtf8 bs2
            else if b = 237 then
              (128 ≤ b1 && b1 ≤ 159) && isCont b2 && validUtf8 bs2
            else
              match bs2 with
              | b3 :: bs3 =>
                if b = 240 then
                  (144 ≤ b1 && b1 ≤ 191) && isCont b2 && isCont b3 && validUtf8 bs3
                else if 241 ≤ b && b ≤ 243 then
                  isCont b1 && isCont b2 && isCont b3 && validUtf8 bs3
                else if b = 244 then
                  (128 ≤ b1 && b1 ≤ 143) && isCont b2 && isCont b3 && validUtf8 bs3
                else false
              | [] => false
          | [] => false
      | [] => false

/-- The encode handler `Base64EncoderTool::on_encode_click`: the encoded
field receives the Base64 encoding of the editor value (given here by its
UTF-8 bytes); encoding is total and always writes a value. -/
def onEncodeClick (value : List Nat) : List Nat :=
  b64encode value

/-- The decode handler `Base64DecoderTool::on_decode_click`: decode the
editor value as Base64, then check the decoded bytes are valid UTF-8; on
success the decoded field receives the decoded text, and on either failure
the match arms do nothing, leaving the decoded field unchanged. -/
def onDecodeClick (value : List Nat) (target : List Nat) : List Nat :=
  match b64decode value with
  | some bs => if validUtf8 bs then bs else target
  | none => target

/-- JSON values as handled by the JSON formatter tool.  Modelled from the
spec: the JSON parser/serializer (serde_json) is an external collaborator;
numbers are modelled as integers. -/
inductive Json where
  | null
  | bool (b : Bool)
  | num (n : Int)
  | str (s : String)
  | arr (xs : List Json)
  | obj (kvs : List (String × Json))

/-- Hexadecimal digit character for a value below 16. -/
def hexDigit (n : Nat) : Char :=
  if n < 10 then Char.ofNat (48 + n) else Char.ofNat (87 + n)

/-- Escape one character for a JSON string literal: quote, backslash and
control characters are escaped, everything else is kept. -/
def escChar (c : Char) : String :=
  if c = '"' then "\\\""
  else if c = '\\' then "\\\\"
  else if c = '\n' then "\\n"
  else if c = '\t' then "\\t"
  else if c = '\r' then "\\r"
  else if c.toNat < 32 then
    "\\u00" ++ String.mk [hexDigit (c.toNat / 16), hexDigit (c.toNat % 16)]
  else String.mk [c]

/-- JSON string literal for a string: quoted and escaped. -/
def jsonStr (s : String) : String :=
  "\"" ++ String.join (s.data.map escChar) ++ "\""

/-- Indentation for a nesting depth: the selected indent size times the
depth, in spaces. -/
def pad (ind d : Nat) : String :=
  String.mk (List.replicate (ind * d) ' ')

mutual

/-- Modelled from the spec: compact JSON serialization (serde_json
`to_string`): no whitespace, elements separated by commas, keys separated
from values by a colon. -/
def compactPrint : Json → String
  | .null => "null"
  | .bool true => "true"
  | .bool false => "false"
  | .num n => toString n
  | .str s => jsonStr s
  | .arr xs => "[" ++ compactArr xs ++ "]"
  | .obj kvs => "\x7b" ++ compactObj kvs ++ "\x7d"

/-- Comma-separated compact serialization of array elements. -/
def compactArr : List Json → String
  | [] => ""
  | [x] => compactPrint x
  | x :: y :: xs => compactPrint x ++ "," ++ compactArr (y :: xs)

/-- Comma-separated compact serialization of object members. -/
def compactObj : List (String × Json) → String
  | [] => ""
  | [(k, v)] => jsonStr k ++ ":" ++ compactPrint v
  | (k, v) :: p :: ps => jsonStr k ++ ":" ++ compactPrint v ++ "," ++ compactObj (p :: ps)

end

mutual

/-- Modelled from the spec: pretty JSON serialization at a selected indent
size (serde_json `PrettyFormatter::with_indent` over a run of spaces):
non-empty arrays and objects place each element on its own line at one
deeper indentation level; empty ones print without inner whitespace. -/
def prettyPrint (ind d : Nat) : Json → String
  | .null => "null"
  | .bool true => "true"
  | .bool false => "false"
  | .num n => toString n
  | .str s => jsonStr s
  | .arr [] => "[]"
  | .arr (x :: xs) =>
    "[\n" ++ prettyArr ind (d + 1) (x :: xs) ++ "\n" ++ pad ind d ++ "]"
  | .obj [] => "\x7b\x7d"
  | .obj (p :: ps) =>
    "\x7b\n" ++ prettyObj ind (d + 1) (p :: ps) ++ "\n" ++ pad ind d ++ "\x7d"

/-- Pretty serialization of array elements, one per line. -/
def prettyArr (ind d : Nat) : List Json → String
  | [] => ""
  | [x] => pad ind d ++ prettyPrint ind d x
  | x :: y :: xs =>
    pad ind d ++ prettyPrint ind d x ++ ",\n" ++ prettyArr ind d (y :: xs)

/-- Pretty serialization of object members, one per line, with the key
separated from the value by a colon and a space. -/
def prettyObj (ind d : Nat) : List (String × Json) → String
  | [] => ""
  | [(k, v)] => pad ind d ++ jsonStr k ++ ": " ++ prettyPrint ind d v
  | (k, v) :: p :: ps =>
    pad ind d ++ jsonStr k ++ ": " ++ prettyPrint ind d v ++ ",\n" ++
    prettyObj ind d (p :: ps)

end

/-- The format handler `JSONFormatterTool::on_format_click`, parametrized by
the external parser: `serde_json::from_str(value).unwrap()` aborts the whole
operation (panics) when parsing fails, modelled as the error case; on
success the editor value is replaced by the pretty serialization at the
selected indent size. -/
def onFormatClick (parse : String → Option Json) (indentSize : Nat)
    (input : String) : Except Unit String :=
  match parse input with
  | none => Except.error ()
  | some v => Except.ok (prettyPrint indentSize 0 v)

/-- The compact handler `JSONFormatterTool::on_compact_click`, parametrized
by the external parser: unwrap of a failed parse aborts (panics); on success
the editor value is replaced by the compact serialization. -/
def onCompactClick (parse : String → Option Json) (input : String) :
    Except Unit String :=
  match parse input with
  | none => Except.error ()
  | some v => Except.ok (compactPrint v)

/-- Concrete parser recognizing only the empty JSON object, used to
instantiate parser-parametric statements on concrete inputs. -/
def parseEmptyObj (s : String) : Option Json :=
  if s = "\x7b\x7d" then some (Json.obj []) else none

/-- Leap year predicate of the proleptic Gregorian calendar. -/
def isLeap (y : Int) : Bool :=
  y % 4 = 0 && (y % 100 ≠ 0 || y % 400 = 0)

/-- Modelled from the spec: the date/time library (chrono) is an external
collaborator.  Civil date (year, month, day) for a count of days since
1970-01-01, by the standard era-based conversion of the proleptic Gregorian
calendar. -/
def civilFromDays (z : Int) : Int × Nat × Nat :=
  let z2 := z + 719468
  let era := Int.fdiv z2 146097
  let doe := (Int.fmod z2 146097).toNat
  let yoe := (doe - doe / 1460 + doe / 36524 - doe / 146096) / 365
  let y : Int := (yoe : Int) + era * 400
  let doy := doe - (365 * yoe + yoe / 4 - yoe / 100)
  let mp := (5 * doy + 2) / 153
  let d := doy - (153 * mp + 2) / 5 + 1
  let m := if mp < 10 then mp + 3 else mp - 9
  (if m ≤ 2 then y + 1 else y, m, d)

/-- Zero-padded two-digit decimal rendering. -/
def pad2 (n : Nat) : String :=
  if n < 10 then "0" ++ toString n else toString n

/-- Zero-padded four-digit decimal rendering of a non-negative number. -/
def pad4aux (n : Nat) : String :=
  if n < 10 then "000" ++ toString n
  else if n < 100 then "00" ++ toString n
  else if n < 1000 then "0" ++ toString n
  else toString n

/-- Zero-padded four-digit decimal rendering of a year. -/
def pad4 (y : Int) : String :=
  if y < 0 then "-" ++ pad4aux (-y).toNat else pad4aux y.toNat

/-- Modelled from the spec: rendering of the UTC datetime of a timestamp,
in the ISO-8601 shape of the specification example
(YYYY-MM-DDTHH:MM:SSZ). -/
def utcString (ts : Int) : String :=
  let c := civilFromDays (Int.fdiv ts 86400)
  let s := (Int.fmod ts 86400).toNat
  pad4 c.1 ++ "-" ++ pad2 c.2.1 ++ "-" ++ pad2 c.2.2 ++ "T" ++
  pad2 (s / 3600) ++ ":" ++ pad2 (s % 3600 / 60) ++ ":" ++ pad2 (s % 60) ++ "Z"

/-- Lengths of the twelve months of a (leap or common) year. -/
def monthDays (leap : Bool) : List Nat :=
  [31, if leap then 29 else 28, 31, 30, 31, 30, 31, 31, 30, 31, 30, 31]

/-- Ordinal day of the year of a civil date (1 through 365 or 366). -/
def ordinalOf (y : Int) (m d : Nat) : Nat :=
  ((monthDays (isLeap y)).take (m - 1)).sum + d

/-- Derived fields written by the timestamp converter.  The human-relative
offset field is omitted: it depends on the wall clock at click time and is
outside the pure model. -/
structure ConvertedTimestamp where
  utc : String
  daysSinceEpoch : Int
  monthsSinceEpoch : Int
  dayOfYear : Nat
deriving DecidableEq, Repr

/-- Decimal digit run parsed into a number; any non-digit character
fails. -/
def parseDigitsAux (acc : Nat) : List Char → Option Nat
  | [] => some acc
  | c :: cs =>
    if 48 ≤ c.toNat ∧ c.toNat ≤ 57 then
      parseDigitsAux (acc * 10 + (c.toNat - 48)) cs
    else none

/-- Model of Rust `str::parse::<i64>`: an optional sign followed by at
least one decimal digit, with the value within the signed 64-bit range;
anything else fails. -/
def parseI64 (s : String) : Option Int :=
  match s.data with
  | [] => none
  | '-' :: rest =>
    if rest = [] then none
    else
      match parseDigitsAux 0 rest with
      | some n => if n ≤ 9223372036854775808 then some (-(n : Int)) else none
      | none => none
  | '+' :: rest =>
    if rest = [] then none
    else
      match parseDigitsAux 0 rest with
      | some n => if n ≤ 9223372036854775807 then some ((n : Int)) else none
      | none => none
  | cs =>
    match parseDigitsAux 0 cs with
    | some n => if n ≤ 9223372036854775807 then some ((n : Int)) else none
    | none => none

/-- Derived fields for a parsed timestamp, as computed by
`UnixTimestampConverterTool::on_convert_click`: the UTC datetime, the whole
days since the epoch (duration seconds truncated toward zero, as
`Duration::num_days`), the months since the epoch as the year delta times
twelve plus the month delta, and the ordinal day of the year. -/
def convertTimestamp (ts : Int) : ConvertedTimestamp :=
  let c := civilFromDays (Int.fdiv ts 86400)
  { utc := utcString ts
    daysSinceEpoch := Int.tdiv ts 86400
    monthsSinceEpoch := (c.1 - 1970) * 12 + ((c.2.1 : Int) - 1)
    dayOfYear := ordinalOf c.1 c.2.1 c.2.2 }

/-- The convert handler `UnixTimestampConverterTool::on_convert_click`:
`value.parse().unwrap()` aborts the whole operation (panics) when the input
does not parse as a signed 64-bit integer, modelled as the error case; on
success the derived fields are computed and written. -/
def onConvertClick (input : String) : Except Unit ConvertedTimestamp :=
  match parseI64 input with
  | none => Except.error ()
  | some ts => Except.ok (convertTimestamp ts)

/-- The count handler `TextCharacterCountTool::on_count_click`: the reported
character count is `value.len()`, the UTF-8 byte length of the input. -/
def onCountClick (s : String) : Nat :=
  byteLen s.data

theorem byteLen_append (l m : List Char) : byteLen (l ++ m) = byteLen l + byteLen m := by
  induction l with
  | nil => simp [byteLen]
  | cons c t ih => simp [byteLen] at ih ⊢; omega

theorem chainFrom_append_last (hls : List ((Nat × Nat) × ChangeTag)) :
    ∀ a b c tg, chainFrom a hls b → b ≤ c →
      chainFrom a (hls ++ [((b, c), tg)]) c := by
  induction hls with
  | nil =>
    intro a b c tg h hbc
    simp [chainFrom] at h
    simp [chainFrom, h]
    omega
  | cons hd rest ih =>
    intro a b c tg h hbc
    obtain ⟨⟨p, q⟩, t⟩ := hd
    simp [chainFrom] at h ⊢
    exact ⟨h.1, h.2.1, ih q b c tg h.2.2 hbc⟩

theorem chainFrom_sum (hls : List ((Nat × Nat) × ChangeTag)) :
    ∀ a b, chainFrom a hls b → sumLens hls + a = b := by
  induction hls with
  | nil => intro a b h; simp [chainFrom] at h; simp [sumLens, h]
  | cons hd rest ih =>
    intro a b h
    obtain ⟨⟨p, q⟩, t⟩ := hd
    simp [chainFrom] at h
    have hrest := ih q b h.2.2
    simp [sumLens] at hrest ⊢
    omega

theorem foldl_stepHl_chain (ops : List (ChangeTag × List Char)) :
    ∀ t h a, chainFrom a h (byteLen t) →
      chainFrom a ((ops.foldl stepHl (t, h)).2) (byteLen ((ops.foldl stepHl (t, h)).1)) := by
  induction ops with
  | nil => intro t h a hc; simpa using hc
  | cons ch ops ih =>
    intro t h a hc
    have hstep : stepHl (t, h) ch =
        (t ++ ch.2, h ++ [((byteLen t, byteLen (t ++ ch.2)), ch.1)]) := rfl
    rw [List.foldl_cons, hstep]
    apply ih
    apply chainFrom_append_last _ _ _ _ _ hc
    rw [byteLen_append]
    omega

theorem diffAux_self (ts : List (List Char)) :
    ∀ fuel, ts.length ≤ fuel → diffAux fuel ts ts = ts.map (fun t => (ChangeTag.equal, t)) := by
  induction ts with
  | nil => intro fuel h; cases fuel <;> simp [diffAux]
  | cons t ts ih =>
    intro fuel h
    cases fuel with
    | zero => simp at h
    | succ f =>
      simp at h
      simp [diffAux, ih f (by omega)]

theorem diffChanges_self (ts : List (List Char)) :
    diffChanges ts ts = ts.map (fun t => (ChangeTag.equal, t)) :=
  diffAux_self ts (ts.length + ts.length) (by omega)

theorem foldl_stepHl_map_equal (ts : List (List Char)) :
    ∀ t h, (ts.map (fun u => (ChangeTag.equal, u))).foldl stepHl (t, h) =
      (t ++ ts.flatten, h ++ equalRanges (byteLen t) ts) := by
  induction ts with
  | nil => intro t h; simp [equalRanges]
  | cons u ts ih =>
    intro t h
    have hstep : stepHl (t, h) (ChangeTag.equal, u) =
        (t ++ u, h ++ [((byteLen t, byteLen (t ++ u)), ChangeTag.equal)]) := rfl
    simp only [List.map_cons, List.foldl_cons, hstep, ih, equalRanges, byteLen_append,
      List.flatten_cons, List.append_assoc]
    simp

theorem runsBy_join (p : Char → Bool) (l : List Char) : (runsBy p l).flatten = l := by
  induction l with
  | nil => simp [runsBy]
  | cons c cs ih =>
    rw [runsBy]
    rcases hr : runsBy p cs with _ | ⟨r, rs⟩
    · rw [hr] at ih; simp at ih; simp [ih]
    · rw [hr] at ih
      cases r with
      | nil => simp at ih ⊢; exact ih
      | cons d r2 =>
        by_cases hp : p c = p d
        · simp [hp] at ih ⊢; exact ih
        · simp [hp] at ih ⊢; exact ih

theorem splitLines_join (l : List Char) : (splitLines l).flatten = l := by
  induction l with
  | nil => simp [splitLines]
  | cons c cs ih =>
    rw [splitLines]
    rcases hr : splitLines cs with _ | ⟨r, rs⟩
    · rw [hr] at ih; simp at ih; simp [ih]
    · rw [hr] at ih
      by_cases hc : c = '\n'
      · simp [hc] at ih ⊢; exact ih
      · simp [hc] at ih ⊢; exact ih

theorem tokenize_join (g : Granularity) (l : List Char) : (tokenize g l).flatten = l := by
  cases g with
  | character =>
    simp only [tokenize, tokenizeChars]
    induction l with
    | nil => simp
    | cons c cs ih => simp at ih ⊢; exact ih
  | word => exact runsBy_join _ l
  | line => exact splitLines_join l

/-- C1: for every pair of input strings and every granularity, the highlight
ranges produced by the compare operation partition the output buffer: they
chain contiguously from byte 0 to the byte length of the output text (hence
are non-overlapping, in increasing order, with no gaps), and the sum of
their lengths equals the byte length of the output text. -/
theorem diff_highlights_partition_output (g : Granularity) (old new : String) :
    chainFrom 0 ((onCompareClick g old new).2) (byteLen (onCompareClick g old new).1) ∧
    sumLens ((onCompareClick g old new).2) = byteLen (onCompareClick g old new).1 := by
  have h0 : chainFrom 0 ([] : List ((Nat × Nat) × ChangeTag)) (byteLen []) := by
    simp [chainFrom, byteLen]
  have h := foldl_stepHl_chain
    (diffChanges (tokenize g old.data) (tokenize g new.data)) [] [] 0 h0
  rw [onCompareClick]
  refine ⟨h, ?_⟩
  have := chainFrom_sum _ _ _ h
  omega

/-- C2 (counterexample): comparing ab with itself at Character granularity
yields two Equal highlight segments (one per character change emitted by
the per-token inner loop), not exactly one. -/
theorem diff_self_ab_two_segments :
    ¬ ((onCompareClick Granularity.character "ab" "ab").2.length = 1) := by decide

/-- C2 (amended): for every string s and every granularity, comparing s
with itself yields one Equal highlight segment per token of s, in token
order: every segment is classified Equal, the segments chain contiguously
and span the entire output text, which equals s (for the empty string both
the output and the segment list are empty).  The number of segments is the
number of tokens, not one, because the inner loop pushes one highlight per
per-token change. -/
theorem diff_self_per_token_equal (g : Granularity) (s : String) :
    onCompareClick g s s = (s.data, equalRanges 0 (tokenize g s.data)) := by
  rw [onCompareClick, diffChanges_self, foldl_stepHl_map_equal]
  simp only [List.nil_append, tokenize_join]
  rfl

/-- C3 (counterexample): comparing cat with dog at Character granularity
yields six highlight segments (one per character change), not exactly
two. -/
theorem diff_cat_dog_not_two_segments :
    ¬ ((onCompareClick Granularity.character "cat" "dog").2.length = 2) := by decide

/-- C3 (amended): comparing original cat with modified dog at Character
granularity yields six one-character segments, in order: three Delete
segments covering cat (bytes 0 to 3 of the output catdog) followed by three
Insert segments covering dog (bytes 3 to 6), so the deleted text still
precedes the inserted text as a contiguous block. -/
theorem diff_cat_dog_delete_insert :
    onCompareClick Granularity.character "cat" "dog" =
      ("catdog".data,
       [((0, 1), ChangeTag.delete), ((1, 2), ChangeTag.delete),
        ((2, 3), ChangeTag.delete), ((3, 4), ChangeTag.insert),
        ((4, 5), ChangeTag.insert), ((5, 6), ChangeTag.insert)]) := by
  decide

/-- C4: the difference computation is deterministic: runs of the compare
operation on equal original texts, equal modified texts and equal
granularity produce identical output text and highlight range lists (the
model keeps the change tag of each range; the colour stored by the code is
a fixed function of the tag and the theme). -/
theorem diff_deterministic (g g2 : Granularity) (o o2 m m2 : String)
    (hg : g = g2) (ho : o = o2) (hm : m = m2) :
    onCompareClick g o m = onCompareClick g2 o2 m2 := by
  subst hg
  subst ho
  subst hm
  rfl

theorem diff_deterministic_witness :
    (Granularity.word = Granularity.word) ∧
    onCompareClick Granularity.word "a" "b" = onCompareClick Granularity.word "a" "b" :=
  ⟨rfl, diff_deterministic Granularity.word Granularity.word "a" "a" "b" "b" rfl rfl rfl⟩

theorem decodeSextet_encodeSextet : ∀ n < 64, decodeSextet (encodeSextet n) = some n := by
  decide

theorem encodeSextet_ne_pad : ∀ n < 64, encodeSextet n ≠ 61 := by
  decide

theorem validUtf8_lt : ∀ (n : Nat) (l : List Nat), l.length ≤ n → validUtf8 l = true →
    ∀ b ∈ l, b < 256 := by
  intro n
  induction n with
  | zero =>
    intro l hlen hv b hb
    cases l with
    | nil => simp at hb
    | cons x xs => simp at hlen
  | succ n ih =>
    intro l hlen hv b hb
    rcases l with _ | ⟨b0, bs⟩
    · simp at hb
    · rw [validUtf8.eq_def] at hv
      simp only [] at hv
      split at hv
      case isTrue h0 =>
        simp only [List.mem_cons] at hb
        rcases hb with rfl | hb
        · omega
        · exact ih bs (by simp at hlen; omega) hv b hb
      case isFalse h0 =>
        split at hv
        case h_2 => simp at hv
        case h_1 b1 bs1 =>
          split at hv
          case isTrue h2 =>
            simp only [Bool.and_eq_true, decide_eq_true_eq, isCont] at h2 hv
            simp only [List.mem_cons] at hb
            rcases hb with rfl | rfl | hb
            · omega
            · omega
            · exact ih bs1 (by simp at hlen; omega) hv.2 b hb
          case isFalse h2 =>
            split at hv
            case h_2 => simp at hv
            case h_1 b2 bs2 =>
              split at hv
              case isTrue h3 =>
                simp only [Bool.and_eq_true, decide_eq_true_eq, isCont] at hv
                simp only [List.mem_cons] at hb
                rcases hb with rfl | rfl | rfl | hb
                · omega
                · omega
                · omega
                · exact ih bs2 (by simp at hlen; omega) hv.2 b hb
              case isFalse h3 =>
                split at hv
                case isTrue h4 =>
                  simp only [Bool.or_eq_true, Bool.and_eq_true, decide_eq_true_eq] at h4
                  simp only [Bool.and_eq_true, decide_eq_true_eq, isCont] at hv
                  simp only [List.mem_cons] at hb
                  rcases hb with rfl | rfl | rfl | hb
                  · omega
                  · omega
                  · omega
                  · exact ih bs2 (by simp at hlen; omega) hv.2 b hb
                case isFalse h4 =>
                  split at hv
                  case isTrue h5 =>
                    simp only [Bool.and_eq_true, decide_eq_true_eq, isCont] at hv
                    simp only [List.mem_cons] at hb
                    rcases hb with rfl | rfl | rfl | hb
                    · omega
                    · omega
                    · omega
                    · exact ih bs2 (by simp at hlen; omega) hv.2 b hb
                  case isFalse h5 =>
                    split at hv
                    case h_2 => simp at hv
                    case h_1 b3 bs3 =>
                      split at hv
                      case isTrue h6 =>
                        simp only [Bool.and_eq_true, decide_eq_true_eq, isCont] at hv
                        simp only [List.mem_cons] at hb
                        rcases hb with rfl | rfl | rfl | rfl | hb
                        · omega
                        · omega
                        · omega
                        · omega
                        · exact ih bs3 (by simp at hlen; omega) hv.2 b hb
                      case isFalse h6 =>
                        split at hv
                        case isTrue h7 =>
                          simp only [Bool.and_eq_true, decide_eq_true_eq, isCont] at h7 hv
                          simp only [List.mem_cons] at hb
                          rcases hb with rfl | rfl | rfl | rfl | hb
                          · omega
                          · omega
                          · omega
                          · omega
                          · exact ih bs3 (by simp at hlen; omega) hv.2 b hb
                        case isFalse h7 =>
                          split at hv
                          case isTrue h8 =>
                            simp only [Bool.and_eq_true, decide_eq_true_eq, isCont] at hv
                            simp only [List.mem_cons] at hb
                            rcases hb with rfl | rfl | rfl | rfl | hb
                            · omega
                            · omega
                            · omega
                            · omega
                            · exact ih bs3 (by simp at hlen; omega) hv.2 b hb
                          case isFalse h8 => simp at hv

theorem b64decode_b64encode :
    ∀ (n : Nat) (bs : List Nat), bs.length ≤ n → (∀ b ∈ bs, b < 256) →
      b64decode (b64encode bs) = some bs := by
  intro n
  induction n with
  | zero =>
    intro bs hlen hb
    rcases bs with _ | ⟨b1, t⟩
    · rfl
    · simp at hlen
  | succ n ih =>
    intro bs hlen hb
    rcases bs with _ | ⟨b1, _ | ⟨b2, _ | ⟨b3, rest⟩⟩⟩
    · rfl
    · have h1 : b1 < 256 := hb b1 (by simp)
      have e1 := decodeSextet_encodeSextet (b1 / 4) (by omega)
      have e2 := decodeSextet_encodeSextet (b1 % 4 * 16) (by omega)
      have m16 : b1 % 4 * 16 % 16 = 0 := by omega
      have rec1 : b1 / 4 * 4 + b1 % 4 * 16 / 16 = b1 := by omega
      simp [b64encode, b64decode, e1, e2, m16, rec1]
      omega
    · have h1 : b1 < 256 := hb b1 (by simp)
      have h2 : b2 < 256 := hb b2 (by simp)
      have e1 := decodeSextet_encodeSextet (b1 / 4) (by omega)
      have e2 := decodeSextet_encodeSextet (b1 % 4 * 16 + b2 / 16) (by omega)
      have e3 := decodeSextet_encodeSextet (b2 % 16 * 4) (by omega)
      have ne3 := encodeSextet_ne_pad (b2 % 16 * 4) (by omega)
      have m4 : b2 % 16 * 4 % 4 = 0 := by omega
      have rec1 : b1 / 4 * 4 + (b1 % 4 * 16 + b2 / 16) / 16 = b1 := by omega
      have rec2 : (b1 % 4 * 16 + b2 / 16) % 16 * 16 + b2 % 16 * 4 / 4 = b2 := by omega
      simp [b64encode, b64decode, e1, e2, e3, ne3, m4, rec1, rec2]
      omega
    · have h1 : b1 < 256 := hb b1 (by simp)
      have h2 : b2 < 256 := hb b2 (by simp)
      have h3 : b3 < 256 := hb b3 (by simp)
      have e1 := decodeSextet_encodeSextet (b1 / 4) (by omega)
      have e2 := decodeSextet_encodeSextet (b1 % 4 * 16 + b2 / 16) (by omega)
      have e3 := decodeSextet_encodeSextet (b2 % 16 * 4 + b3 / 64) (by omega)
      have e4 := decodeSextet_encodeSextet (b3 % 64) (by omega)
      have ne3 := encodeSextet_ne_pad (b2 % 16 * 4 + b3 / 64) (by omega)
      have ne4 := encodeSextet_ne_pad (b3 % 64) (by omega)
      have hrec := ih rest (by simp at hlen; omega) (fun b hbm => hb b (by simp [hbm]))
      have rec1 : b1 / 4 * 4 + (b1 % 4 * 16 + b2 / 16) / 16 = b1 := by omega
      have rec2 : (b1 % 4 * 16 + b2 / 16) % 16 * 16 + (b2 % 16 * 4 + b3 / 64) / 4 = b2 := by
        omega
      have rec3 : (b2 % 16 * 4 + b3 / 64) % 4 * 64 + b3 % 64 = b3 := by omega
      simp [b64encode, b64decode, e1, e2, e3, e4, ne3, ne4, hrec, rec1, rec2, rec3]

/-- C5: when the editor value is not valid standard-alphabet Base64, or its
decoded bytes are not valid UTF-8, the decode handler leaves the decoded
(target) field unchanged; both failure arms of the match are empty, so no
error is surfaced and the handler is total (it cannot abort). -/
theorem b64_decode_failure_leaves_target (input target : List Nat)
    (h : b64decode input = none ∨
      ∃ bs, b64decode input = some bs ∧ validUtf8 bs = false) :
    onDecodeClick input target = target := by
  rcases h with h | ⟨bs, h, hv⟩
  · simp [onDecodeClick, h]
  · simp [onDecodeClick, h, hv]

theorem b64_decode_failure_leaves_target_witness :
    b64decode [33] = none ∧ onDecodeClick [33] [97] = [97] :=
  ⟨by decide, b64_decode_failure_leaves_target [33] [97] (Or.inl (by decide))⟩

/-- C6: Base64 round-trip: for every valid UTF-8 byte sequence, decoding
the encoding produced by the encode handler succeeds, passes the UTF-8
check, and writes back exactly the original bytes; the encode handler is a
total function and never fails. -/
theorem b64_roundtrip_decode_encode (s target : List Nat)
    (h : validUtf8 s = true) :
    onDecodeClick (onEncodeClick s) target = s := by
  have hlt : ∀ b ∈ s, b < 256 := validUtf8_lt s.length s (le_refl _) h
  have hrt := b64decode_b64encode s.length s (le_refl _) hlt
  simp [onDecodeClick, onEncodeClick, hrt, h]

theorem b64_roundtrip_decode_encode_witness :
    validUtf8 [97, 98, 99] = true ∧
      onDecodeClick (onEncodeClick [97, 98, 99]) [0] = [97, 98, 99] :=
  ⟨by decide, b64_roundtrip_decode_encode [97, 98, 99] [0] (by decide)⟩

/-- C7: for every parser, indent size and input: when the input does not
parse, both the Format and the Compact handler abort the whole operation
(the unwrap panics, modelled by the error result) instead of returning a
recoverable error or leaving the editor value in place; when the input
parses, Format replaces the editor value with the pretty serialization at
the selected indent size and Compact replaces it with the compact
serialization. -/
theorem json_unwrap_abort_or_replace (parse : String → Option Json)
    (indentSize : Nat) (input : String) :
    (parse input = none →
      onFormatClick parse indentSize input = Except.error () ∧
      onCompactClick parse input = Except.error ()) ∧
    (∀ v, parse input = some v →
      onFormatClick parse indentSize input = Except.ok (prettyPrint indentSize 0 v) ∧
      onCompactClick parse input = Except.ok (compactPrint v)) := by
  constructor
  · intro h
    constructor
    · simp [onFormatClick, h]
    · simp [onCompactClick, h]
  · intro v h
    constructor
    · simp [onFormatClick, h]
    · simp [onCompactClick, h]

theorem json_unwrap_abort_or_replace_witness :
    (parseEmptyObj "x" = none ∧
      onFormatClick parseEmptyObj 2 "x" = Except.error ()) ∧
    (parseEmptyObj "\x7b\x7d" = some (Json.obj []) ∧
      onCompactClick parseEmptyObj "\x7b\x7d" = Except.ok (compactPrint (Json.obj []))) :=
  ⟨⟨by simp [parseEmptyObj],
    ((json_unwrap_abort_or_replace parseEmptyObj 2 "x").1 (by simp [parseEmptyObj])).1⟩,
   ⟨by simp [parseEmptyObj],
    ((json_unwrap_abort_or_replace parseEmptyObj 2 "\x7b\x7d").2 (Json.obj [])
      (by simp [parseEmptyObj])).2⟩⟩

/-- C8: the claim asks that a non-numeric input yield an InvalidNumber or
InvalidInput error result without crashing, but the convert handler calls
`value.parse().unwrap()`, which panics on parse failure, aborting the whole
operation, and a negative integer input such as -1 parses successfully and
is converted instead of being rejected.  This theorem evaluates the
embedded handler at both inputs: the non-numeric input aborts, and the
negative input succeeds. -/
theorem timestamp_parse_unwrap_aborts :
    onConvertClick "abc" = Except.error () ∧
    onConvertClick "-1" =
      Except.ok
        { utc := "1969-12-31T23:59:59Z"
          daysSinceEpoch := 0
          monthsSinceEpoch := -1
          dayOfYear := 365 } := by
  constructor
  · rfl
  · rfl

/-- C9: converting the input 0 produces the UTC datetime string
1970-01-01T00:00:00Z, days-since-epoch 0, months-since-epoch 0 and
day-of-year 1. -/
theorem timestamp_zero_conversion :
    onConvertClick "0" =
      Except.ok
        { utc := "1970-01-01T00:00:00Z"
          daysSinceEpoch := 0
          monthsSinceEpoch := 0
          dayOfYear := 1 } := by
  rfl

theorem byteLen_cons (c : Char) (t : List Char) :
    byteLen (c :: t) = c.utf8Size + byteLen t := rfl

theorem byteLen_ge_length (l : List Char) : l.length ≤ byteLen l := by
  induction l with
  | nil => simp [byteLen]
  | cons c t ih =>
    have := c.utf8Size_pos
    rw [byteLen_cons]
    simp only [List.length_cons]
    omega

theorem byteLen_gt_length (l : List Char) (h : ∃ c ∈ l, 1 < c.utf8Size) :
    l.length < byteLen l := by
  induction l with
  | nil => simp at h
  | cons c t ih =>
    rcases h with ⟨d, hd, hsz⟩
    rcases List.mem_cons.mp hd with rfl | hd
    · have h1 := byteLen_ge_length t
      rw [byteLen_cons]
      simp only [List.length_cons]
      omega
    · have h1 := ih ⟨d, hd, hsz⟩
      have := c.utf8Size_pos
      rw [byteLen_cons]
      simp only [List.length_cons]
      omega

/-- C10: the count handler reports `value.len()`, the UTF-8 byte length of
the input, not the number of characters: for every input containing at
least one character whose UTF-8 encoding takes more than one byte, the
reported count strictly exceeds the number of characters. -/
theorem count_reports_byte_length (s : String)
    (h : ∃ c ∈ s.data, 1 < c.utf8Size) :
    s.length < onCountClick s := by
  show s.data.length < byteLen s.data
  exact byteLen_gt_length s.data h

theorem count_reports_byte_length_witness :
    (∃ c ∈ ("é" : String).data, 1 < c.utf8Size) ∧
      ("é" : String).length < onCountClick "é" :=
  ⟨by decide, count_reports_byte_length "é" (by decide)⟩
